import Mathlib

/- Shallow embedding of the GitGraph server's computation layer (src/server.js).

   Modelling conventions:
   * a calendar date ("YYYY-MM-DD" string in the code) is modelled as an
     integer counting days since 1970-01-01 (epoch day); ISO date strings
     compare lexicographically exactly as their epoch days compare
     numerically, and `new Date(str)` / `formatDate` round-trip through this
     day number (UTC semantics);
   * an instant (a JS `Date` used as a number) is modelled as an integer
     counting milliseconds since the epoch;
   * JS numbers produced by division are modelled as rationals; the
     non-finite values `Infinity` / `-Infinity` / `NaN` that `Math.max()`,
     `Math.min()` and `0/0` produce on empty input are modelled by `none` in
     an `Option` result.  -/

/-- A daily contribution record `{date, count}`: the flattened
`contributionDays` entries of src/server.js. -/
structure Contrib where
  date : Int
  count : Nat
  deriving DecidableEq, Repr

/-- Epoch day number of a civil calendar date (days since 1970-01-01); models
how `new Date("YYYY-MM-DD")` places a date on the UTC day line. -/
def daysFromCivil (y : Int) (m d : Nat) : Int :=
  let yAdj : Int := y - (if m ≤ 2 then 1 else 0)
  let era : Int := yAdj.fdiv 400
  let yoe : Int := yAdj - era * 400
  let mp : Int := if 2 < m then (m : Int) - 3 else (m : Int) + 9
  let doy : Int := (153 * mp + 2).fdiv 5 + (d : Int) - 1
  let doe : Int := yoe * 365 + yoe.fdiv 4 - yoe.fdiv 100 + doy
  era * 146097 + doe - 719468

/-- Calendar year of an epoch day number (models `Date#getFullYear` on a UTC
date): the standard civil-from-days conversion, keeping only the year. -/
def yearOf (z : Int) : Int :=
  let z2 : Int := z + 719468
  let era : Int := z2.fdiv 146097
  let doe : Int := z2 - era * 146097
  let yoe : Int := (doe - doe.fdiv 1460 + doe.fdiv 36524 - doe.fdiv 146096).fdiv 365
  let y : Int := yoe + era * 400
  let doy : Int := doe - (365 * yoe + yoe.fdiv 4 - yoe.fdiv 100)
  let mp : Int := (5 * doy + 2).fdiv 153
  y + (if 10 ≤ mp then 1 else 0)

/-- Day of week of an epoch day number, Sunday = 0 (models `Date#getDay`;
1970-01-01 was a Thursday). -/
def dayOfWeek (z : Int) : Nat := ((z + 4).emod 7).toNat

/-- `calculateChange` (src/server.js lines 507-510): percentage change between
a current and a previous metric value.  JS number division over `ℚ`. -/
def calculateChange (current previous : ℚ) : ℚ :=
  if previous = 0 then (if current > 0 then 100 else 0)
  else (current - previous) / previous * 100

/-- Milliseconds in one day, the `24 * 60 * 60 * 1000` of src/server.js. -/
def dayMs : Int := 24 * 60 * 60 * 1000

/-- The five period tokens the lookup tables of src/server.js recognise as
own properties. -/
def knownPeriods : List String := ["1week", "1month", "90day", "6month", "1year"]

/-- The value a JS property read on an object literal can produce: an own
data value, an inherited `Object.prototype` member (reached through the
prototype chain; always a function or an object), or `undefined`. -/
inductive JsLookup (α : Type) where
  | own (a : α)
  | inherited (name : String)
  | undef
  deriving DecidableEq, Repr

/-- The properties of `Object.prototype` every object literal inherits:
`obj[key]` for any of these keys yields a function (or, for `__proto__`,
`Object.prototype` itself) instead of `undefined`. -/
def objectProtoKeys : List String :=
  ["constructor", "hasOwnProperty", "isPrototypeOf", "propertyIsEnumerable",
   "toLocaleString", "toString", "valueOf", "__proto__",
   "__defineGetter__", "__defineSetter__", "__lookupGetter__",
   "__lookupSetter__"]

/-- JS property read `obj[key]` on an object literal whose own entries are
`own`: an own property shadows the prototype; otherwise the lookup walks the
prototype chain up to `Object.prototype` before producing `undefined`. -/
def jsObjGet {α : Type} (own : String → Option α) (key : String) :
    JsLookup α :=
  match own key with
  | some a => JsLookup.own a
  | none =>
    if key ∈ objectProtoKeys then JsLookup.inherited key else JsLookup.undef

/-- JS truthiness of a looked-up value, parameterized by the truthiness of
the own data values (a `Date` object is always truthy, a number is truthy
iff non-zero).  Inherited prototype members are functions or objects, hence
truthy; `undefined` is falsy. -/
def JsLookup.isTruthy {α : Type} (truthyOwn : α → Bool) :
    JsLookup α → Bool
  | JsLookup.own a => truthyOwn a
  | JsLookup.inherited _ => true
  | JsLookup.undef => false

/-- `getDateRange` (src/server.js lines 236-250): the `ranges` object literal
maps each of the five tokens to the `Date` at `now - days·dayMs` (modelled
as its instant), and `ranges[period] || ranges["1month"]` falls back to the
1-month entry only when the lookup is falsy — an own `Date` is truthy, and
so is any member inherited from `Object.prototype` (e.g.
`ranges["constructor"]`), which the `||` therefore passes through unchanged.
Result is the `(from, to)` pair. -/
def getDateRange (period : String) (now : Int) : JsLookup Int × Int :=
  let ranges : String → Option Int := fun p =>
    if p = "1week" then some (now - 7 * dayMs)
    else if p = "1month" then some (now - 30 * dayMs)
    else if p = "90day" then some (now - 90 * dayMs)
    else if p = "6month" then some (now - 180 * dayMs)
    else if p = "1year" then some (now - 365 * dayMs)
    else none
  let looked := jsObjGet ranges period
  (if looked.isTruthy (fun _ => true) then looked
   else jsObjGet ranges "1month", now)

/-- `getRollingPeriodDays` (src/server.js lines 749-758): the `periods`
object literal with `periods[period] || 30`.  Every own entry is a non-zero,
hence truthy, number, and members inherited from `Object.prototype` (e.g.
`periods["constructor"]`) are truthy too, so the 30-day fallback applies
only to keys found nowhere on the prototype chain. -/
def getRollingPeriodDays (period : String) : JsLookup Nat :=
  let periods : String → Option Nat := fun p =>
    if p = "1week" then some 7
    else if p = "1month" then some 30
    else if p = "90day" then some 90
    else if p = "6month" then some 180
    else if p = "1year" then some 365
    else none
  let looked := jsObjGet periods period
  if looked.isTruthy (fun n => n ≠ 0) then looked else JsLookup.own 30

/-- C3: `calculateChange` returns 0 when previous = 0 and current = 0, 100
when previous = 0 and current > 0, and `(current - previous)/previous * 100`
otherwise; in particular it maps (0,0) to 0, (5,0) to 100, (0,5) to -100,
(10,5) to 100 and (5,10) to -50. -/
theorem calculateChange_spec (current previous : ℚ) :
    (previous = 0 → current = 0 → calculateChange current previous = 0) ∧
    (previous = 0 → 0 < current → calculateChange current previous = 100) ∧
    (previous ≠ 0 →
      calculateChange current previous = (current - previous) / previous * 100) ∧
    calculateChange 0 0 = 0 ∧ calculateChange 5 0 = 100 ∧
    calculateChange 0 5 = -100 ∧ calculateChange 10 5 = 100 ∧
    calculateChange 5 10 = -50 := by
  refine ⟨fun hp hc => by simp [calculateChange, hp, hc],
          fun hp hc => by simp [calculateChange, hp, hc],
          fun hp => by simp [calculateChange, hp],
          ?_, ?_, ?_, ?_, ?_⟩ <;> norm_num [calculateChange]

/-- Witness for C3: the general branches of `calculateChange_spec` evaluated
at the concrete pair (10, 5). -/
theorem calculateChange_spec_witness :
    (5 : ℚ) ≠ 0 ∧ calculateChange 10 5 = (10 - 5) / 5 * 100 :=
  ⟨by norm_num, (calculateChange_spec 10 5).2.2.1 (by norm_num)⟩

/-- C9 counterexample: the token "constructor" is not one of the five known
periods, yet neither resolver falls back to the 1-month default: the object
literals inherit `Object.prototype`, so `ranges["constructor"]` and
`periods["constructor"]` are the inherited (truthy) `Object` constructor,
which `||` passes through instead of the fallback. -/
theorem period_resolvers_proto_counterexample :
    "constructor" ∉ knownPeriods ∧
      getDateRange "constructor" 0
        = (JsLookup.inherited "constructor", 0) ∧
      getDateRange "constructor" 0 ≠ (JsLookup.own (0 - 30 * dayMs), 0) ∧
      getRollingPeriodDays "constructor" = JsLookup.inherited "constructor" ∧
      getRollingPeriodDays "constructor" ≠ JsLookup.own 30 := by
  decide

/-- C9 amended: a period token that is neither a known period nor a property
of `Object.prototype` (such as "bogus") falls back to the 1-month default in
both resolvers — from = now - 30 days and a 30-day window, with no error —
and the known tokens resolve to exactly 7/30/90/180/365 days with `to` the
current instant; but a token naming an inherited `Object.prototype` member
(such as "constructor" or "toString") makes both resolvers return that
inherited truthy member instead of the fallback. -/
theorem period_resolvers_spec (period : String) (now : Int) :
    (period ∉ knownPeriods → period ∉ objectProtoKeys →
      getDateRange period now = (JsLookup.own (now - 30 * dayMs), now) ∧
      getRollingPeriodDays period = JsLookup.own 30) ∧
    (period ∉ knownPeriods → period ∈ objectProtoKeys →
      getDateRange period now = (JsLookup.inherited period, now) ∧
      getRollingPeriodDays period = JsLookup.inherited period) ∧
    getDateRange "1week" now = (JsLookup.own (now - 7 * dayMs), now) ∧
    getDateRange "1month" now = (JsLookup.own (now - 30 * dayMs), now) ∧
    getDateRange "90day" now = (JsLookup.own (now - 90 * dayMs), now) ∧
    getDateRange "6month" now = (JsLookup.own (now - 180 * dayMs), now) ∧
    getDateRange "1year" now = (JsLookup.own (now - 365 * dayMs), now) ∧
    getRollingPeriodDays "1week" = JsLookup.own 7 ∧
    getRollingPeriodDays "1month" = JsLookup.own 30 ∧
    getRollingPeriodDays "90day" = JsLookup.own 90 ∧
    getRollingPeriodDays "6month" = JsLookup.own 180 ∧
    getRollingPeriodDays "1year" = JsLookup.own 365 := by
  refine ⟨fun h hp => ?_, fun h hp => ?_, ?_, ?_, ?_, ?_, ?_, ?_, ?_, ?_,
    ?_, ?_⟩
  · simp only [knownPeriods, List.mem_cons, List.not_mem_nil, or_false,
      not_or] at h
    obtain ⟨h1, h2, h3, h4, h5⟩ := h
    exact ⟨by simp [getDateRange, jsObjGet, JsLookup.isTruthy,
             h1, h2, h3, h4, h5, hp],
           by simp [getRollingPeriodDays, jsObjGet, JsLookup.isTruthy,
             h1, h2, h3, h4, h5, hp]⟩
  · simp only [knownPeriods, List.mem_cons, List.not_mem_nil, or_false,
      not_or] at h
    obtain ⟨h1, h2, h3, h4, h5⟩ := h
    exact ⟨by simp [getDateRange, jsObjGet, JsLookup.isTruthy,
             h1, h2, h3, h4, h5, hp],
           by simp [getRollingPeriodDays, jsObjGet, JsLookup.isTruthy,
             h1, h2, h3, h4, h5, hp]⟩
  all_goals simp [getDateRange, getRollingPeriodDays, jsObjGet,
    JsLookup.isTruthy]

/-- Witness for C9: the fallback branches of `period_resolvers_spec`
evaluated at "bogus", a token neither known nor present on
`Object.prototype`. -/
theorem period_resolvers_spec_witness :
    "bogus" ∉ knownPeriods ∧ "bogus" ∉ objectProtoKeys ∧
      getDateRange "bogus" 0 = (JsLookup.own (0 - 30 * dayMs), 0) ∧
      getRollingPeriodDays "bogus" = JsLookup.own 30 :=
  ⟨by decide, by decide,
    ((period_resolvers_spec "bogus" 0).1 (by decide) (by decide)).1,
    ((period_resolvers_spec "bogus" 0).1 (by decide) (by decide)).2⟩

/-- A recorded streak `{length, startDate, endDate}` (src/server.js lines
315-319). -/
structure Streak where
  length : Nat
  startDate : Int
  endDate : Int
  deriving DecidableEq, Repr

/-- A key of the `streakFrequency` object: one of the numeric keys "1".."30"
or the overflow key "31+". -/
inductive Bucket where
  | len (n : Nat)
  | overflow
  deriving DecidableEq, Repr

/-- Result shape of `calculateStreaks`.  `streakFrequency` is the object's
key/value contents in key order; `averageStreakLength` is an `Option` because
the early return for an empty input omits that key entirely (`undefined`). -/
structure StreakResult where
  streaks : List Streak
  streakFrequency : List (Bucket × Nat)
  longestStreak : Nat
  totalStreaks : Nat
  averageStreakLength : Option ℚ
  deriving DecidableEq, Repr

/-- Sort comparator `(a, b) => new Date(a.date) - new Date(b.date)`:
ascending by date. -/
def dateLe (a b : Contrib) : Bool := a.date ≤ b.date

/-- The scan loop of `calculateStreaks` (src/server.js lines 303-333,
including the final flush of an open streak): walks the sorted list carrying
the running streak length `currentStreak`, its start date `streakStart`, the
date of the previously visited entry (the loop reads it back as
`sortedContributions[i-1].date`), and the streaks recorded so far. -/
def streaksGo : List Contrib → Nat → Option Int → Option Int → List Streak → List Streak
  | [], currentStreak, streakStart, prev, acc =>
    if 0 < currentStreak then
      acc ++ [⟨currentStreak, streakStart.getD 0, prev.getD 0⟩]
    else acc
  | c :: rest, currentStreak, streakStart, prev, acc =>
    if 0 < c.count then
      streaksGo rest (currentStreak + 1)
        (if currentStreak = 0 then some c.date else streakStart) (some c.date) acc
    else if 0 < currentStreak then
      streaksGo rest 0 none (some c.date)
        (acc ++ [⟨currentStreak, streakStart.getD 0, prev.getD 0⟩])
    else
      streaksGo rest 0 streakStart (some c.date) acc

/-- The initial `streakFrequency` object: keys 1..30 then "31+", all 0
(src/server.js lines 339-343). -/
def baseFrequency : List (Bucket × Nat) :=
  ((List.range 30).map fun i => (Bucket.len (i + 1), 0)) ++ [(Bucket.overflow, 0)]

/-- `streakFrequency[key]++`: bump the value stored under an existing key. -/
def bumpFreq (freq : List (Bucket × Nat)) (b : Bucket) : List (Bucket × Nat) :=
  freq.map fun p => if p.1 = b then (p.1, p.2 + 1) else p

/-- Body of `calculateStreaks` after the sort (src/server.js lines 299-365):
scan out the streaks, then fill the frequency histogram and the summary
statistics over them. -/
def streaksResultOfSorted (sortedContributions : List Contrib) : StreakResult :=
  let streaks := streaksGo sortedContributions 0 none none []
  let streakFrequency := streaks.foldl
    (fun freq s =>
      bumpFreq freq (if s.length ≤ 30 then Bucket.len s.length else Bucket.overflow))
    baseFrequency
  let longestStreak := streaks.foldl (fun m s => max m s.length) 0
  { streaks := streaks
    streakFrequency := streakFrequency
    longestStreak := longestStreak
    totalStreaks := streaks.length
    averageStreakLength :=
      some (if 0 < streaks.length
            then ((streaks.map Streak.length).sum : ℚ) / streaks.length
            else 0) }

/-- `calculateStreaks` (src/server.js lines 285-366): early return for an
empty list — note with an empty `streakFrequency` object and no
`averageStreakLength` key — otherwise sort a copy of the input by date and
analyse the sorted list. -/
def calculateStreaks (contributions : List Contrib) : StreakResult :=
  if contributions.isEmpty then
    { streaks := [], streakFrequency := [], longestStreak := 0,
      totalStreaks := 0, averageStreakLength := none }
  else
    streaksResultOfSorted (contributions.mergeSort dateLe)

/-- Date of the last entry of a list, with a fallback for the empty list. -/
def lastDate : List Contrib → Int → Int
  | [], d => d
  | c :: rest, _ => lastDate rest c.date

/-- Modelled from the spec's words for C2 (a second, spec-side definition to
compare `calculateStreaks` against): the maximal runs of consecutive entries
with `count > 0` in a series, each reported with its length, the date of its
first entry and the date of its last entry. -/
def specRuns : List Contrib → List Streak
  | [] => []
  | c :: rest =>
    if 0 < c.count then
      let tl := rest.takeWhile fun x => 0 < x.count
      ⟨tl.length + 1, c.date, lastDate tl c.date⟩ ::
        specRuns (rest.dropWhile fun x => 0 < x.count)
    else specRuns rest
termination_by l => l.length
decreasing_by
  · simp only [List.length_cons]
    exact Nat.lt_succ_of_le (List.dropWhile_sublist _).length_le
  · simp

/-- The C2 scenario series
[(2024-01-01, 0), (2024-01-02, 3), (2024-01-03, 5), (2024-01-04, 0)]. -/
def exampleSeries : List Contrib :=
  [⟨daysFromCivil 2024 1 1, 0⟩, ⟨daysFromCivil 2024 1 2, 3⟩,
   ⟨daysFromCivil 2024 1 3, 5⟩, ⟨daysFromCivil 2024 1 4, 0⟩]

/-- `specRuns` on the empty series. -/
theorem specRuns_nil : specRuns [] = [] := by
  simp [specRuns]

/-- `specRuns` unfolding for a positive-count head: it opens a run. -/
theorem specRuns_cons_pos (c : Contrib) (rest : List Contrib)
    (hc : 0 < c.count) :
    specRuns (c :: rest) =
      ⟨(rest.takeWhile fun x => 0 < x.count).length + 1, c.date,
          lastDate (rest.takeWhile fun x => 0 < x.count) c.date⟩ ::
        specRuns (rest.dropWhile fun x => 0 < x.count) := by
  rw [specRuns]
  simp [hc]

/-- `specRuns` unfolding for a zero-count head: it is skipped. -/
theorem specRuns_cons_zero (c : Contrib) (rest : List Contrib)
    (hc : ¬ 0 < c.count) :
    specRuns (c :: rest) = specRuns rest := by
  rw [specRuns]
  simp [hc]

/-- Behaviour of the scan: started idle it appends exactly the spec-side
runs; started in the middle of a run of length `k + 1` it first closes that
run — extended over the leading positive-count entries — and continues
idle. -/
theorem streaksGo_spec (l : List Contrib) :
    (∀ prev acc, streaksGo l 0 none prev acc = acc ++ specRuns l) ∧
    (∀ k s p acc, streaksGo l (k + 1) (some s) (some p) acc =
      acc ++ ⟨k + 1 + (l.takeWhile fun x => 0 < x.count).length, s,
              lastDate (l.takeWhile fun x => 0 < x.count) p⟩ ::
        specRuns (l.dropWhile fun x => 0 < x.count)) := by
  induction l with
  | nil =>
    refine ⟨fun prev acc => ?_, fun k s p acc => ?_⟩
    · simp [streaksGo, specRuns_nil]
    · simp [streaksGo, lastDate, specRuns_nil]
  | cons c rest ih =>
    refine ⟨fun prev acc => ?_, fun k s p acc => ?_⟩
    · by_cases hc : 0 < c.count
      · have h1 : streaksGo (c :: rest) 0 none prev acc
            = streaksGo rest (0 + 1) (some c.date) (some c.date) acc := by
          simp [streaksGo, hc]
        rw [h1, ih.2, specRuns_cons_pos c rest hc]
        simp [Nat.add_comm]
      · have h1 : streaksGo (c :: rest) 0 none prev acc
            = streaksGo rest 0 none (some c.date) acc := by
          simp [streaksGo, hc]
        rw [h1, ih.1, specRuns_cons_zero c rest hc]
    · by_cases hc : 0 < c.count
      · have h1 : streaksGo (c :: rest) (k + 1) (some s) (some p) acc
            = streaksGo rest (k + 1 + 1) (some s) (some c.date) acc := by
          simp [streaksGo, hc]
        rw [h1, ih.2]
        have harith :
            ∀ n : Nat, k + 1 + 1 + n = k + 1 + (n + 1) := by omega
        simp [List.takeWhile_cons, List.dropWhile_cons, hc, lastDate, harith]
      · have h1 : streaksGo (c :: rest) (k + 1) (some s) (some p) acc
            = streaksGo rest 0 none (some c.date)
                (acc ++ [⟨k + 1, s, p⟩]) := by
          simp [streaksGo, hc]
        rw [h1, ih.1]
        simp [List.takeWhile_cons, List.dropWhile_cons, hc, lastDate,
          specRuns_cons_zero c rest hc]

/-- C2: on a date-sorted series `calculateStreaks` returns exactly the
spec-side maximal runs of consecutive positive-count entries, each reported
with its length, the date of its first entry and the date of its last entry;
and on the four-day scenario series it yields the single streak (length 2,
2024-01-02 .. 2024-01-03), a histogram whose only non-zero bucket is length 2
with value 1, and a longest streak of 2. -/
theorem calculateStreaks_maximal_runs :
    (∀ l : List Contrib, (l.Pairwise fun a b => a.date ≤ b.date) →
      (calculateStreaks l).streaks = specRuns l) ∧
    (calculateStreaks exampleSeries).streaks =
      [⟨2, daysFromCivil 2024 1 2, daysFromCivil 2024 1 3⟩] ∧
    (calculateStreaks exampleSeries).longestStreak = 2 ∧
    (Bucket.len 2, 1) ∈ (calculateStreaks exampleSeries).streakFrequency ∧
    ∀ p ∈ (calculateStreaks exampleSeries).streakFrequency,
      p.1 ≠ Bucket.len 2 → p.2 = 0 := by
  have hcalc : calculateStreaks exampleSeries
      = streaksResultOfSorted exampleSeries := by
    have hsort : exampleSeries.mergeSort dateLe = exampleSeries :=
      List.mergeSort_of_sorted (by decide)
    simp only [calculateStreaks, hsort]
    rw [if_neg (by decide)]
  refine ⟨fun l hs => ?_, by rw [hcalc]; decide, by rw [hcalc]; decide,
    by rw [hcalc]; decide, by rw [hcalc]; decide⟩
  rcases l with _ | ⟨c, rest⟩
  · simp [calculateStreaks, specRuns_nil]
  · have hsort : (c :: rest).mergeSort dateLe = c :: rest :=
      List.mergeSort_of_sorted (hs.imp fun h => by simpa [dateLe] using h)
    simp only [calculateStreaks, List.isEmpty_cons, Bool.false_eq_true,
      if_false, streaksResultOfSorted, hsort]
    simpa using (streaksGo_spec (c :: rest)).1 none []

/-- Witness for C2: the general part of `calculateStreaks_maximal_runs`
applied to the (sorted) scenario series. -/
theorem calculateStreaks_maximal_runs_witness :
    (exampleSeries.Pairwise fun a b => a.date ≤ b.date) ∧
      (calculateStreaks exampleSeries).streaks = specRuns exampleSeries :=
  ⟨by decide, calculateStreaks_maximal_runs.1 exampleSeries (by decide)⟩

/-- C4 counterexample: for the empty series the early return of
`calculateStreaks` yields an empty `streakFrequency` object — not even the
bucket for length 1 is present, let alone all of 1..30 and "31+" — and it
omits `averageStreakLength` altogether instead of reporting 0. -/
theorem calculateStreaks_empty_counterexample :
    (calculateStreaks []).streakFrequency = [] ∧
      ¬ (Bucket.len 1, 0) ∈ (calculateStreaks []).streakFrequency ∧
      ¬ (calculateStreaks []).averageStreakLength = some 0 := by
  decide

/-- C4 amended: on the empty series `calculateStreaks` still returns a
defined zero/empty result — empty streak list, `longestStreak` 0,
`totalStreaks` 0 — but its histogram is the empty object (no buckets at all)
and the `averageStreakLength` key is absent. -/
theorem calculateStreaks_empty :
    calculateStreaks [] =
      { streaks := [], streakFrequency := [], longestStreak := 0,
        totalStreaks := 0, averageStreakLength := none } := rfl

/-- Through the scan, the recorded streak lengths absorb exactly the
positive-count entries: result lengths = accumulated lengths + open run +
positive entries remaining. -/
theorem streaksGo_length_sum (l : List Contrib) :
    ∀ cur start prev acc,
      ((streaksGo l cur start prev acc).map Streak.length).sum =
        (acc.map Streak.length).sum + cur +
          l.countP (fun c => 0 < c.count) := by
  induction l with
  | nil =>
    intro cur start prev acc
    by_cases hcur : 0 < cur
    · simp [streaksGo, hcur]
    · simp [streaksGo, hcur, Nat.eq_zero_of_not_pos hcur]
  | cons c rest ih =>
    intro cur start prev acc
    by_cases hc : 0 < c.count
    · have h1 : streaksGo (c :: rest) cur start prev acc
          = streaksGo rest (cur + 1)
              (if cur = 0 then some c.date else start) (some c.date) acc := by
        simp [streaksGo, hc]
      rw [h1, ih]
      simp [List.countP_cons, hc]
      omega
    · by_cases hcur : 0 < cur
      · have h1 : streaksGo (c :: rest) cur start prev acc
            = streaksGo rest 0 none (some c.date)
                (acc ++ [⟨cur, start.getD 0, prev.getD 0⟩]) := by
          simp [streaksGo, hc, hcur]
        rw [h1, ih]
        simp [List.countP_cons, hc]
      · have h1 : streaksGo (c :: rest) cur start prev acc
            = streaksGo rest 0 start (some c.date) acc := by
          simp [streaksGo, hc, hcur]
        rw [h1, ih]
        simp [List.countP_cons, hc, Nat.eq_zero_of_not_pos hcur]

/-- C7: the streak lengths found by `calculateStreaks` and the zero-count
entries together account for every entry of the series. -/
theorem calculateStreaks_length_conservation (contributions : List Contrib) :
    ((calculateStreaks contributions).streaks.map Streak.length).sum +
      (contributions.filter fun c => c.count = 0).length =
      contributions.length := by
  rcases contributions with _ | ⟨c, rest⟩
  · simp [calculateStreaks]
  · have hstreaks : (calculateStreaks (c :: rest)).streaks
        = streaksGo ((c :: rest).mergeSort dateLe) 0 none none [] := by
      simp [calculateStreaks, streaksResultOfSorted]
    rw [hstreaks, streaksGo_length_sum]
    have hperm : ((c :: rest).mergeSort dateLe).Perm (c :: rest) :=
      List.mergeSort_perm _ _
    rw [hperm.countP_eq]
    rw [← List.countP_eq_length_filter]
    have hsplit : ∀ t : List Contrib,
        t.countP (fun x => 0 < x.count) + t.countP (fun x => x.count = 0)
          = t.length := by
      intro t
      induction t with
      | nil => simp
      | cons a t iht =>
        rcases Nat.eq_zero_or_pos a.count with h | h
        · simp only [List.countP_cons, h, List.length_cons]
          simp
          omega
        · simp only [List.countP_cons, List.length_cons]
          simp [h, Nat.pos_iff_ne_zero.mp h]
          omega
    have := hsplit (c :: rest)
    simp only [List.map_nil, List.sum_nil, Nat.zero_add]
    omega

/-- A rolling point `{date, rollingSum}` (src/server.js lines 782-785). -/
structure RollingPoint where
  date : Int
  rollingSum : Nat
  deriving DecidableEq, Repr

/-- The `contributionMap` of `calculateRollingSums` and the deduplicating
`Map` of `fetchAllContributions`: a JS `Map` built by repeated `set`, so for
a duplicated date the later entry overrides the earlier one. -/
def buildMap (contributions : List Contrib) : Int → Option Nat :=
  contributions.foldl
    (fun m c => fun d => if d = c.date then some c.count else m d)
    (fun _ => none)

/-- `calculateRollingSums` (src/server.js lines 761-789): for each date of
the series, taken in ascending order (`.sort()` on ISO date strings is
chronological order), sum the looked-up counts of that date and the
`rollingDays - 1` preceding calendar days, where a missing day contributes 0
(`contributionMap.get(dateStr) || 0`). -/
def calculateRollingSums (contributions : List Contrib) (rollingDays : Nat) :
    List RollingPoint :=
  let contributionMap := buildMap contributions
  let sortedDates := (contributions.map Contrib.date).mergeSort fun a b => a ≤ b
  sortedDates.map fun currentDate =>
    { date := currentDate
      rollingSum := (List.range rollingDays).foldl
        (fun (sum j : Nat) =>
          sum + (contributionMap (currentDate - (j : Int))).getD 0) 0 }

/-- Spec-side point lookup: the count recorded for a date in a series, 0 when
the date is absent. -/
def countOn (contributions : List Contrib) (d : Int) : Nat :=
  ((contributions.find? fun c => c.date = d).map Contrib.count).getD 0

/-- The override fold of `buildMap` leaves the base map intact on a date none
of the entries carries. -/
theorem buildMap_foldl_not_mem (t : List Contrib) :
    ∀ (m : Int → Option Nat) (d : Int), (∀ c ∈ t, c.date ≠ d) →
      t.foldl (fun m c => fun d2 => if d2 = c.date then some c.count else m d2)
          m d = m d := by
  induction t with
  | nil => intro m d _; rfl
  | cons a t ih =>
    intro m d hne
    have ha : a.date ≠ d := hne a (List.mem_cons_self a t)
    have := ih (fun d2 => if d2 = a.date then some a.count else m d2) d
      (fun c hc => hne c (List.mem_cons_of_mem a hc))
    simp only [List.foldl_cons, this]
    exact if_neg fun h => ha h.symm

/-- With pairwise-distinct dates, the override fold returns the count of the
unique entry carrying the looked-up date. -/
theorem buildMap_foldl_mem (t : List Contrib) :
    ∀ (m : Int → Option Nat) (d : Int) (c : Contrib),
      (t.map Contrib.date).Nodup → c ∈ t → c.date = d →
      t.foldl (fun m c2 => fun d2 => if d2 = c2.date then some c2.count else m d2)
          m d = some c.count := by
  induction t with
  | nil => intro _ _ _ _ hmem; cases hmem
  | cons a t ih =>
    intro m d c hnodup hmem heq
    have hnd := List.nodup_cons.mp hnodup
    rcases List.mem_cons.mp hmem with rfl | hmem'
    · have hnotin : ∀ x ∈ t, x.date ≠ d := by
        intro x hx hxd
        exact hnd.1 (heq ▸ hxd ▸ List.mem_map_of_mem Contrib.date hx)
      simp only [List.foldl_cons, buildMap_foldl_not_mem t _ d hnotin]
      simp [heq]
    · exact List.foldl_cons _ _ ▸ ih _ d c hnd.2 hmem' heq

/-- Under pairwise-distinct dates the `Map` lookup (last entry wins) agrees
with the spec-side point lookup (first matching entry). -/
theorem buildMap_eq_countOn (l : List Contrib)
    (h : (l.map Contrib.date).Nodup) (d : Int) :
    (buildMap l d).getD 0 = countOn l d := by
  rcases hfind : l.find? (fun c => c.date = d) with _ | c
  · have hnotin : ∀ c ∈ l, c.date ≠ d := by
      intro c hc
      have := List.find?_eq_none.mp hfind c hc
      simpa using this
    simp only [buildMap, buildMap_foldl_not_mem l _ d hnotin]
    simp [countOn, hfind]
  · have hmem := List.mem_of_find?_eq_some hfind
    have heq : c.date = d := by simpa using List.find?_some hfind
    simp only [buildMap, buildMap_foldl_mem l _ d c h hmem heq]
    simp [countOn, hfind]

/-- Accumulating fold of looked-up values equals the sum of the mapped
list. -/
theorem foldl_getD_sum (mp : Int → Option Nat) (d : Int) (l : List Nat) :
    ∀ init : Nat,
      l.foldl (fun (sum j : Nat) => sum + (mp (d - (j : Int))).getD 0) init
        = init + (l.map fun (j : Nat) => (mp (d - (j : Int))).getD 0).sum := by
  induction l with
  | nil => intro init; simp
  | cons a l ih =>
    intro init
    simp only [List.foldl_cons, List.map_cons, List.sum_cons, ih]
    omega

/-- Projecting the date back out of the rolling points recovers the date
list they were built from. -/
theorem map_map_date (ds : List Int) (f : Int → RollingPoint)
    (hf : ∀ d, (f d).date = d) : (ds.map f).map RollingPoint.date = ds := by
  rw [List.map_map]
  have hid : (RollingPoint.date ∘ f) = id := funext fun d => hf d
  rw [hid, List.map_id]

/-- A weakly sorted list of integers without duplicates is strictly
sorted. -/
theorem pairwise_lt_of_le_nodup {l : List Int}
    (h1 : l.Pairwise fun a b => a ≤ b) (h2 : l.Nodup) :
    l.Pairwise fun a b => a < b :=
  (h1.and h2).imp fun h => lt_of_le_of_ne h.1 h.2

/-- C1: for every series with pairwise-distinct dates and every window length
W ≥ 1, `calculateRollingSums` returns exactly one point per input date, in
strictly ascending date order, and each point's rolling sum is the sum of the
counts of its date and the W-1 immediately preceding calendar days, a day
absent from the series (including any day before the series' first recorded
date) contributing 0. -/
theorem calculateRollingSums_spec (contributions : List Contrib) (W : Nat)
    (_hW : 1 ≤ W) (hnodup : (contributions.map Contrib.date).Nodup) :
    ((calculateRollingSums contributions W).map RollingPoint.date).Perm
        (contributions.map Contrib.date) ∧
    ((calculateRollingSums contributions W).map RollingPoint.date).Pairwise
        (fun a b => a < b) ∧
    ∀ p ∈ calculateRollingSums contributions W,
      p.rollingSum =
        ((List.range W).map fun (j : Nat) =>
          countOn contributions (p.date - (j : Int))).sum := by
  have hdates : (calculateRollingSums contributions W).map RollingPoint.date
      = (contributions.map Contrib.date).mergeSort fun a b => a ≤ b := by
    simp only [calculateRollingSums]
    exact map_map_date _ _ fun d => rfl
  have hperm : ((contributions.map Contrib.date).mergeSort fun a b => a ≤ b).Perm
      (contributions.map Contrib.date) := List.mergeSort_perm _ _
  refine ⟨hdates ▸ hperm, ?_, ?_⟩
  · rw [hdates]
    refine pairwise_lt_of_le_nodup ?_ (hperm.nodup_iff.mpr hnodup)
    have := @List.sorted_mergeSort Int (fun a b : Int => decide (a ≤ b))
      (fun a b c => by simpa using le_trans)
      (fun a b => by simpa using le_total a b)
      (contributions.map Contrib.date)
    exact this.imp fun h => by simpa using h
  · intro p hp
    simp only [calculateRollingSums, List.mem_map] at hp
    obtain ⟨d, hd, rfl⟩ := hp
    simp only [foldl_getD_sum, Nat.zero_add]
    rw [List.map_congr_left fun (j : Nat) hj =>
      buildMap_eq_countOn contributions hnodup (d - (j : Int))]

/-- Witness for C1: `calculateRollingSums_spec` applied to the two-day series
[(day 0, count 2), (day 1, count 3)] with window W = 2. -/
theorem calculateRollingSums_spec_witness :
    1 ≤ 2 ∧ (([⟨0, 2⟩, ⟨1, 3⟩] : List Contrib).map Contrib.date).Nodup ∧
      ∀ p ∈ calculateRollingSums [⟨0, 2⟩, ⟨1, 3⟩] 2,
        p.rollingSum =
          ((List.range 2).map fun (j : Nat) =>
            countOn [⟨0, 2⟩, ⟨1, 3⟩] (p.date - (j : Int))).sum :=
  ⟨by decide, by decide,
    (calculateRollingSums_spec [⟨0, 2⟩, ⟨1, 3⟩] 2 (by decide) (by decide)).2.2⟩

/-- `Math.round`: round half toward positive infinity. -/
def jsRound (q : ℚ) : Int := ⌊q + 1 / 2⌋

/-- The summary statistics of the rolling endpoint (src/server.js lines
904-927): `Math.max(...vals)`, `Math.min(...vals)` and the mean of the
rolling values, each passed through `Math.round`.  On an empty value list
`Math.max()` evaluates to `-Infinity`, `Math.min()` to `Infinity`, and the
mean to `0 / 0 = NaN`; these non-finite JS numbers are modelled as `none`
(`Math.round` maps them to themselves). -/
def rollingSummary (rollingSums : List RollingPoint) :
    Option Int × Option Int × Option Int :=
  let rollingValues : List ℚ := rollingSums.map fun r => (r.rollingSum : ℚ)
  let maxRolling : Option Int :=
    match rollingValues with
    | [] => none
    | v :: rest => some (jsRound (rest.foldl max v))
  let minRolling : Option Int :=
    match rollingValues with
    | [] => none
    | v :: rest => some (jsRound (rest.foldl min v))
  let avgRolling : Option Int :=
    if rollingValues.length = 0 then none
    else
      some (jsRound
        ((rollingValues.foldl (fun a b => a + b) 0) / (rollingValues.length : ℚ)))
  (maxRolling, minRolling, avgRolling)

/-- C5 counterexample: on the empty series the rolling-summary statistics are
the non-finite values `-Infinity` / `Infinity` / `NaN` (modelled `none`), not
defined numeric zero/empty results. -/
theorem rollingSummary_empty_counterexample :
    rollingSummary (calculateRollingSums [] 30) = (none, none, none) := by
  have h : calculateRollingSums [] 30 = [] := by
    simp [calculateRollingSums]
  rw [h]
  rfl

/-- C5 amended: for every nonempty series the three summary statistics of
the rolling endpoint are finite numbers, but for the empty series (an empty
rolling-sum list) the code produces `Math.max() = -Infinity`,
`Math.min() = Infinity` and a `0/0 = NaN` average — non-finite values rather
than defined numeric zero/empty results (they serialize as `null`). -/
theorem rollingSummary_defined (l : List Contrib) (W : Nat) (hne : l ≠ []) :
    (∃ a b c : Int,
      rollingSummary (calculateRollingSums l W) = (some a, some b, some c)) ∧
    rollingSummary (calculateRollingSums [] W) = (none, none, none) := by
  constructor
  · have hne2 : calculateRollingSums l W ≠ [] := by
      intro hnil
      have : (calculateRollingSums l W).map RollingPoint.date = [] := by
        rw [hnil]; rfl
      have hd : (calculateRollingSums l W).map RollingPoint.date
          = (l.map Contrib.date).mergeSort fun a b => a ≤ b := by
        simp only [calculateRollingSums]
        exact map_map_date _ _ fun d => rfl
      have hperm := List.mergeSort_perm (l.map Contrib.date)
        fun a b : Int => decide (a ≤ b)
      rw [hd] at this
      rw [this] at hperm
      exact hne (by simpa using hperm.symm.eq_nil)
    rcases hr : calculateRollingSums l W with _ | ⟨p, ps⟩
    · exact absurd hr hne2
    · exact ⟨_, _, _, rfl⟩
  · have h : calculateRollingSums [] W = [] := by
      simp [calculateRollingSums]
    rw [h]
    rfl

/-- Witness for C5: `rollingSummary_defined` applied to the one-day series
[(day 0, count 1)] with a 7-day window. -/
theorem rollingSummary_defined_witness :
    ([⟨0, 1⟩] : List Contrib) ≠ [] ∧
      ∃ a b c : Int,
        rollingSummary (calculateRollingSums [⟨0, 1⟩] 7)
          = (some a, some b, some c) :=
  ⟨by decide, (rollingSummary_defined [⟨0, 1⟩] 7 (by decide)).1⟩

/-- The day names of src/server.js lines 684-692. -/
def dayNames : List String :=
  ["Sunday", "Monday", "Tuesday", "Wednesday", "Thursday", "Friday", "Saturday"]

/-- One formatted weekly-pattern entry (src/server.js lines 735-739). -/
structure WeekdayEntry where
  day : String
  dayShort : String
  count : Nat
  deriving DecidableEq, Repr

/-- The five fixed intensity buckets (src/server.js lines 695-701). -/
structure IntensityBuckets where
  b0 : Nat
  b1to3 : Nat
  b4to10 : Nat
  b11to20 : Nat
  b21plus : Nat
  deriving DecidableEq, Repr

/-- Intensity classification of one day (src/server.js lines 714-725). -/
def intensityAdd (b : IntensityBuckets) (count : Nat) : IntensityBuckets :=
  if count = 0 then { b with b0 := b.b0 + 1 }
  else if count ≤ 3 then { b with b1to3 := b.b1to3 + 1 }
  else if count ≤ 10 then { b with b4to10 := b.b4to10 + 1 }
  else if count ≤ 20 then { b with b11to20 := b.b11to20 + 1 }
  else { b with b21plus := b.b21plus + 1 }

/-- `yearlyData[year] += count` with on-demand key creation (src/server.js
lines 727-731), keeping the object's key/value pairs as a list. -/
def bumpYear (ydata : List (Int × Nat)) (year : Int) (cnt : Nat) :
    List (Int × Nat) :=
  match ydata with
  | [] => [(year, cnt)]
  | (y, v) :: rest =>
    if y = year then (y, v + cnt) :: rest else (y, v) :: bumpYear rest year cnt

/-- One step of the single `forEach` pass of `calculateAnalytics`
(src/server.js lines 706-732), updating the weekly pattern array, the
intensity buckets and the yearly totals for one day. -/
def analyticsStep (st : List Nat × IntensityBuckets × List (Int × Nat))
    (day : Contrib) : List Nat × IntensityBuckets × List (Int × Nat) :=
  let dow := dayOfWeek day.date
  let year := yearOf day.date
  (st.1.set dow (st.1.getD dow 0 + day.count),
   intensityAdd st.2.1 day.count,
   bumpYear st.2.2 year day.count)

/-- Result shape of `calculateAnalytics` (src/server.js lines 741-745). -/
structure Analytics where
  weeklyPattern : List WeekdayEntry
  intensityDistribution : IntensityBuckets
  yearlyData : List (Int × Nat)
  deriving DecidableEq, Repr

/-- `calculateAnalytics` (src/server.js lines 681-746): one pass accumulating
the weekly pattern (7 zero-initialised day-of-week totals), the intensity
distribution and the yearly totals, then formatting the weekly pattern with
day names. -/
def calculateAnalytics (contributions : List Contrib) : Analytics :=
  let st := contributions.foldl analyticsStep
    (List.replicate 7 0, ⟨0, 0, 0, 0, 0⟩, [])
  { weeklyPattern := (List.range 7).map fun i =>
      { day := dayNames.getD i ""
        dayShort := (dayNames.getD i "").take 3
        count := st.1.getD i 0 }
    intensityDistribution := st.2.1
    yearlyData := st.2.2 }

/-- Total number of days binned across the five intensity buckets. -/
def intensityTotal (b : IntensityBuckets) : Nat :=
  b.b0 + b.b1to3 + b.b4to10 + b.b11to20 + b.b21plus

/-- `Date#getDay` always lands inside the 7-slot weekly pattern array. -/
theorem dayOfWeek_lt (z : Int) : dayOfWeek z < 7 := by
  have h1 : 0 ≤ (z + 4).emod 7 := Int.emod_nonneg _ (by norm_num)
  have h2 : (z + 4).emod 7 < 7 := Int.emod_lt_of_pos _ (by norm_num)
  simp only [dayOfWeek]
  omega

/-- Adding to one slot of the array adds to its sum. -/
theorem sum_set_getD (w : List Nat) :
    ∀ (i c : Nat), i < w.length →
      (w.set i (w.getD i 0 + c)).sum = w.sum + c := by
  induction w with
  | nil => intro i c h; cases h
  | cons a t ih =>
    intro i c h
    cases i with
    | zero =>
      simp only [List.getD_cons_zero, List.set_cons_zero, List.sum_cons]
      omega
    | succ n =>
      simp only [List.getD_cons_succ, List.set_cons_succ, List.sum_cons]
      rw [ih n c (by simpa using h)]
      omega

/-- Each day falls into exactly one intensity bucket. -/
theorem intensityTotal_add (b : IntensityBuckets) (c : Nat) :
    intensityTotal (intensityAdd b c) = intensityTotal b + 1 := by
  simp only [intensityAdd, intensityTotal]
  repeat' split
  all_goals simp
  all_goals omega

/-- `yearlyData[year] += count` adds the count to the total of the yearly
values, whether or not the key already exists. -/
theorem bumpYear_sum (year : Int) (c : Nat) :
    ∀ ydata : List (Int × Nat),
      ((bumpYear ydata year c).map Prod.snd).sum
        = (ydata.map Prod.snd).sum + c := by
  intro ydata
  induction ydata with
  | nil => simp [bumpYear]
  | cons p rest ih =>
    rcases p with ⟨y, v⟩
    simp only [bumpYear]
    split
    · simp
      omega
    · simp [ih]
      omega

/-- Reading the array back slot by slot recovers its sum. -/
theorem range_getD_sum : ∀ w : List Nat,
    ((List.range w.length).map fun i => w.getD i 0).sum = w.sum := by
  intro w
  induction w with
  | nil => simp
  | cons a t ih =>
    rw [List.length_cons, List.range_succ_eq_map]
    simp only [List.map_cons, List.map_map, List.getD_cons_zero,
      List.sum_cons]
    rw [show ((fun i => (a :: t).getD i 0) ∘ Nat.succ) = fun i => t.getD i 0
      from funext fun i => by simp [List.getD_cons_succ]]
    rw [ih]

/-- Invariant of the single analytics pass: the weekly array keeps its 7
slots and absorbs every count, the intensity buckets absorb one unit per
entry, and the yearly totals absorb every count. -/
theorem analytics_foldl_invariant (l : List Contrib) :
    ∀ (w : List Nat) (b : IntensityBuckets) (y : List (Int × Nat)),
      w.length = 7 →
      (l.foldl analyticsStep (w, b, y)).1.length = 7 ∧
      (l.foldl analyticsStep (w, b, y)).1.sum
        = w.sum + (l.map Contrib.count).sum ∧
      intensityTotal (l.foldl analyticsStep (w, b, y)).2.1
        = intensityTotal b + l.length ∧
      ((l.foldl analyticsStep (w, b, y)).2.2.map Prod.snd).sum
        = (y.map Prod.snd).sum + (l.map Contrib.count).sum := by
  induction l with
  | nil =>
    intro w b y hw
    simp [hw]
  | cons c t ih =>
    intro w b y hw
    simp only [List.foldl_cons, analyticsStep]
    have hdow := dayOfWeek_lt c.date
    have hw' : (w.set (dayOfWeek c.date)
        (w.getD (dayOfWeek c.date) 0 + c.count)).length = 7 := by
      simp [hw]
    obtain ⟨ih1, ih2, ih3, ih4⟩ := ih _ _ _ hw'
    refine ⟨ih1, ?_, ?_, ?_⟩
    · rw [ih2, sum_set_getD w _ _ (hw ▸ hdow)]
      simp only [List.map_cons, List.sum_cons]
      omega
    · rw [ih3, intensityTotal_add]
      simp only [List.length_cons]
      omega
    · rw [ih4, bumpYear_sum]
      simp only [List.map_cons, List.sum_cons]
      omega

/-- C6: `calculateAnalytics` conserves totals — the seven weekly-pattern
counts sum to the total of all counts, the yearly totals sum to the total of
all counts, and the five intensity buckets together count every entry of the
series. -/
theorem calculateAnalytics_conservation (contributions : List Contrib) :
    ((calculateAnalytics contributions).weeklyPattern.map
        WeekdayEntry.count).sum
      = (contributions.map Contrib.count).sum ∧
    ((calculateAnalytics contributions).yearlyData.map Prod.snd).sum
      = (contributions.map Contrib.count).sum ∧
    intensityTotal (calculateAnalytics contributions).intensityDistribution
      = contributions.length := by
  obtain ⟨h1, h2, h3, h4⟩ := analytics_foldl_invariant contributions
    (List.replicate 7 0) ⟨0, 0, 0, 0, 0⟩ [] (by simp)
  obtain ⟨st, hst⟩ : ∃ st, contributions.foldl analyticsStep
      (List.replicate 7 0, ⟨0, 0, 0, 0, 0⟩, []) = st := ⟨_, rfl⟩
  rw [hst] at h1 h2 h3 h4
  refine ⟨?_, ?_, ?_⟩
  · simp only [calculateAnalytics, List.map_map, hst]
    rw [show (WeekdayEntry.count ∘ fun i =>
        ({ day := dayNames.getD i ""
           dayShort := (dayNames.getD i "").take 3
           count := st.1.getD i 0 } : WeekdayEntry))
      = fun i => st.1.getD i 0 from rfl]
    rw [show (7 : Nat) = st.1.length from h1.symm]
    rw [range_getD_sum, h2]
    simp
  · simp only [calculateAnalytics, hst]
    rw [h4]
    simp
  · simp only [calculateAnalytics, hst]
    rw [h3]
    simp [intensityTotal]

/-- `Map#set` as performed by the dedup loop of `fetchAllContributions`
(src/server.js lines 853-856): overwrite the value in place when the key is
already present, otherwise append the new entry. -/
def mapSet (m : List (Int × Nat)) (d : Int) (cnt : Nat) : List (Int × Nat) :=
  if m.any fun p => p.1 = d then
    m.map fun p => if p.1 = d then (d, cnt) else p
  else m ++ [(d, cnt)]

/-- The merge step of `fetchAllContributions` (src/server.js lines 852-863):
dedupe the accumulated per-chunk day entries through a `Map` keyed by date —
the last processed occurrence of a date wins — then rebuild `{date, count}`
records and sort them ascending by date.  (The fetch loop itself is network
I/O; the list this function receives is exactly the accumulated
`allContributions` buffer.) -/
def fetchAllContributionsMerge (allContributions : List Contrib) :
    List Contrib :=
  let uniqueContributions := allContributions.foldl
    (fun m contrib => mapSet m contrib.date contrib.count) []
  (uniqueContributions.map fun p => Contrib.mk p.1 p.2).mergeSort dateLe

/-- `buildMap` on the empty series knows no date. -/
theorem buildMap_nil (d : Int) : buildMap [] d = none := rfl

/-- Unfolding `buildMap` over a cons: the tail (processed later) takes
priority, the head only answers for dates the tail does not know. -/
theorem buildMap_cons (c : Contrib) (t : List Contrib) (d : Int) :
    buildMap (c :: t) d
      = match buildMap t d with
        | some v => some v
        | none => if d = c.date then some c.count else none := by
  have key : ∀ (t2 : List Contrib) (m : Int → Option Nat) (d2 : Int),
      t2.foldl
          (fun m2 c2 => fun d3 => if d3 = c2.date then some c2.count else m2 d3)
          m d2
        = match buildMap t2 d2 with
          | some v => some v
          | none => m d2 := by
    intro t2
    induction t2 with
    | nil => intro m d2; simp [buildMap]
    | cons a t2 ih =>
      intro m d2
      simp only [List.foldl_cons]
      rw [ih]
      have hunfold : buildMap (a :: t2) d2
          = t2.foldl
              (fun m2 c2 => fun d3 => if d3 = c2.date then some c2.count else m2 d3)
              (fun d3 => if d3 = a.date then some a.count else none) d2 := rfl
      rw [hunfold, ih]
      cases hbt : buildMap t2 d2 with
      | none => by_cases hd : d2 = a.date <;> simp [hd]
      | some v => simp
  have hunfold : buildMap (c :: t) d
      = t.foldl
          (fun m2 c2 => fun d3 => if d3 = c2.date then some c2.count else m2 d3)
          (fun d3 => if d3 = c.date then some c.count else none) d := rfl
  rw [hunfold, key]

/-- The keys of `mapSet`: unchanged when the date was present, the date
appended otherwise. -/
theorem mapSet_keys (m : List (Int × Nat)) (d : Int) (cnt : Nat) :
    (mapSet m d cnt).map Prod.fst
      = if d ∈ m.map Prod.fst then m.map Prod.fst
        else m.map Prod.fst ++ [d] := by
  by_cases h : d ∈ m.map Prod.fst
  · rw [if_pos h]
    have hany : (m.any fun p => p.1 = d) = true := by
      simp only [List.any_eq_true, decide_eq_true_eq]
      obtain ⟨p, hp, he⟩ := List.mem_map.mp h
      exact ⟨p, hp, he⟩
    simp only [mapSet, hany, if_true, List.map_map]
    apply List.map_congr_left
    intro p hp
    by_cases hpd : p.1 = d
    · simp [hpd]
    · simp [hpd]
  · rw [if_neg h]
    have hany : (m.any fun p => p.1 = d) = false := by
      rw [List.any_eq_false]
      intro p hp
      simp only [decide_eq_true_eq]
      intro he
      exact h (List.mem_map.mpr ⟨p, hp, he⟩)
    simp [mapSet, hany]

/-- Membership in the keys after a `Map#set`. -/
theorem mem_mapSet_keys (m : List (Int × Nat)) (d x : Int) (cnt : Nat) :
    x ∈ (mapSet m d cnt).map Prod.fst
      ↔ x ∈ m.map Prod.fst ∨ x = d := by
  rw [mapSet_keys]
  split
  · rename_i hin
    constructor
    · exact Or.inl
    · rintro (hx | rfl)
      · exact hx
      · exact hin
  · simp

/-- `Map#set` keeps the keys pairwise distinct. -/
theorem mapSet_keys_nodup (m : List (Int × Nat)) (d : Int) (cnt : Nat)
    (h : (m.map Prod.fst).Nodup) :
    ((mapSet m d cnt).map Prod.fst).Nodup := by
  rw [mapSet_keys]
  split
  · exact h
  · rename_i hd
    simp [List.nodup_append, h, hd]

/-- After `map.set(d, cnt)` the entry stored under `d` carries `cnt`. -/
theorem mapSet_lookup_self (m : List (Int × Nat)) (d : Int) (cnt : Nat) :
    ∀ p ∈ mapSet m d cnt, p.1 = d → p.2 = cnt := by
  intro p hp hpd
  simp only [mapSet] at hp
  by_cases hany : (m.any fun q => q.1 = d) = true
  · rw [if_pos hany] at hp
    obtain ⟨q, hq, he⟩ := List.mem_map.mp hp
    by_cases hqd : q.1 = d
    · rw [if_pos hqd] at he
      rw [← he]
    · rw [if_neg hqd] at he
      exact absurd (he ▸ hpd) hqd
  · rw [if_neg hany] at hp
    rcases List.mem_append.mp hp with hin | hsing
    · exfalso
      simp only [List.any_eq_true, decide_eq_true_eq] at hany
      push_neg at hany
      exact absurd hpd (hany p hin)
    · rw [List.mem_singleton.mp hsing]

/-- `Map#set` leaves entries under other keys untouched. -/
theorem mapSet_lookup_other (m : List (Int × Nat)) (d : Int) (cnt : Nat) :
    ∀ p ∈ mapSet m d cnt, p.1 ≠ d → p ∈ m := by
  intro p hp hpd
  simp only [mapSet] at hp
  by_cases hany : (m.any fun q => q.1 = d) = true
  · rw [if_pos hany] at hp
    obtain ⟨q, hq, he⟩ := List.mem_map.mp hp
    by_cases hqd : q.1 = d
    · rw [if_pos hqd] at he
      exact absurd (congrArg Prod.fst he.symm) hpd
    · rw [if_neg hqd] at he
      exact he ▸ hq
  · rw [if_neg hany] at hp
    rcases List.mem_append.mp hp with hin | hsing
    · exact hin
    · exact absurd (congrArg Prod.fst (List.mem_singleton.mp hsing)) hpd

/-- Invariant of the dedup fold of `fetchAllContributions`: keys stay
pairwise distinct, the key set is the base keys plus the processed dates, and
each stored value is the last count processed for its date (entries of the
base map survive only for dates never processed). -/
theorem foldl_mapSet_invariant (l : List Contrib) :
    ∀ m : List (Int × Nat), (m.map Prod.fst).Nodup →
      (((l.foldl (fun acc c => mapSet acc c.date c.count) m).map
          Prod.fst).Nodup) ∧
      (∀ x, x ∈ (l.foldl (fun acc c => mapSet acc c.date c.count) m).map
            Prod.fst
        ↔ (x ∈ m.map Prod.fst ∨ x ∈ l.map Contrib.date)) ∧
      (∀ p ∈ l.foldl (fun acc c => mapSet acc c.date c.count) m,
        ∀ v, buildMap l p.1 = some v → p.2 = v) ∧
      (∀ p ∈ l.foldl (fun acc c => mapSet acc c.date c.count) m,
        buildMap l p.1 = none → p ∈ m) := by
  induction l with
  | nil =>
    intro m hm
    refine ⟨hm, by simp, ?_, ?_⟩
    · intro p hp v hv
      rw [buildMap_nil] at hv
      cases hv
    · intro p hp _
      exact hp
  | cons c t ih =>
    intro m hm
    simp only [List.foldl_cons]
    have hm1 : ((mapSet m c.date c.count).map Prod.fst).Nodup :=
      mapSet_keys_nodup m c.date c.count hm
    obtain ⟨ih1, ih2, ih3, ih4⟩ := ih (mapSet m c.date c.count) hm1
    refine ⟨ih1, ?_, ?_, ?_⟩
    · intro x
      rw [ih2, mem_mapSet_keys]
      simp only [List.map_cons, List.mem_cons]
      tauto
    · intro p hp v hv
      rw [buildMap_cons] at hv
      cases hbt : buildMap t p.1 with
      | some w =>
        rw [hbt] at hv
        simp only [Option.some.injEq] at hv
        exact hv ▸ ih3 p hp w hbt
      | none =>
        rw [hbt] at hv
        simp only at hv
        by_cases hd : p.1 = c.date
        · rw [if_pos hd] at hv
          simp only [Option.some.injEq] at hv
          exact hv ▸ mapSet_lookup_self m c.date c.count p (ih4 p hp hbt) hd
        · rw [if_neg hd] at hv
          cases hv
    · intro p hp hv
      rw [buildMap_cons] at hv
      cases hbt : buildMap t p.1 with
      | some w => rw [hbt] at hv; cases hv
      | none =>
        rw [hbt] at hv
        simp only at hv
        by_cases hd : p.1 = c.date
        · rw [if_pos hd] at hv
          cases hv
        · exact mapSet_lookup_other m c.date c.count p (ih4 p hp hbt) hd

/-- C8: whatever list of per-chunk day entries the multi-year fetch
accumulates, the merged result of `fetchAllContributions` contains each date
at most once, is strictly ascending by date, keeps for every date the count
of the last-processed occurrence, and covers every accumulated date. -/
theorem fetchAllContributions_merge_spec (allContributions : List Contrib) :
    ((fetchAllContributionsMerge allContributions).map Contrib.date).Nodup ∧
    ((fetchAllContributionsMerge allContributions).map Contrib.date).Pairwise
      (fun a b => a < b) ∧
    (∀ c ∈ fetchAllContributionsMerge allContributions,
      buildMap allContributions c.date = some c.count) ∧
    (∀ c ∈ allContributions,
      c.date ∈ (fetchAllContributionsMerge allContributions).map
        Contrib.date) := by
  obtain ⟨hnd, hmem, hval1, hval2⟩ :=
    foldl_mapSet_invariant allContributions [] (by simp)
  obtain ⟨u, hu⟩ : ∃ u, allContributions.foldl
      (fun m contrib => mapSet m contrib.date contrib.count) [] = u := ⟨_, rfl⟩
  simp only [hu] at hnd hmem hval1 hval2
  have hres : fetchAllContributionsMerge allContributions
      = (u.map fun p => Contrib.mk p.1 p.2).mergeSort dateLe := by
    simp only [fetchAllContributionsMerge, hu]
  have hperm : ((u.map fun p => Contrib.mk p.1 p.2).mergeSort dateLe).Perm
      (u.map fun p => Contrib.mk p.1 p.2) := List.mergeSort_perm _ _
  have hmapdate : ((u.map fun p => Contrib.mk p.1 p.2).map Contrib.date)
      = u.map Prod.fst := by
    rw [List.map_map]
    rfl
  have hpermd : ((fetchAllContributionsMerge allContributions).map
      Contrib.date).Perm (u.map Prod.fst) := by
    rw [hres, ← hmapdate]
    exact hperm.map Contrib.date
  have hnd2 : ((fetchAllContributionsMerge allContributions).map
      Contrib.date).Nodup := hpermd.nodup_iff.mpr hnd
  refine ⟨hnd2, ?_, ?_, ?_⟩
  · have hsorted : ((u.map fun p => Contrib.mk p.1 p.2).mergeSort
        dateLe).Pairwise (fun a b => dateLe a b) :=
      List.sorted_mergeSort
        (fun a b c hab hbc => by
          simp only [dateLe, decide_eq_true_eq] at *
          exact le_trans hab hbc)
        (fun a b => by
          simp only [dateLe, Bool.or_eq_true, decide_eq_true_eq]
          exact le_total a.date b.date)
        _
    have hle : ((fetchAllContributionsMerge allContributions).map
        Contrib.date).Pairwise (fun a b => a ≤ b) := by
      rw [hres, List.pairwise_map]
      exact hsorted.imp fun h => by simpa [dateLe] using h
    exact pairwise_lt_of_le_nodup hle hnd2
  · intro c hc
    rw [hres, List.mem_mergeSort] at hc
    obtain ⟨p, hp, rfl⟩ := List.mem_map.mp hc
    cases hb : buildMap allContributions p.1 with
    | none => exact absurd (hval2 p hp hb) (List.not_mem_nil p)
    | some v =>
      have hv := hval1 p hp v hb
      simp [hv, hb]
  · intro c hc
    have : c.date ∈ u.map Prod.fst :=
      (hmem c.date).mpr (Or.inr (List.mem_map_of_mem Contrib.date hc))
    exact hpermd.mem_iff.mpr this

/-- A JS array reference: an index into a heap of arrays. -/
structure ArrRef where
  idx : Nat
  deriving DecidableEq, Repr

/-- Read the array a reference points to (heap: one slot per allocated
array). -/
def heapGet (h : List (List Contrib)) (r : ArrRef) : List Contrib :=
  h.getD r.idx []

/-- Allocate a fresh array holding `v`, returning the grown heap and the new
reference. -/
def heapAlloc (h : List (List Contrib)) (v : List Contrib) :
    List (List Contrib) × ArrRef :=
  (h ++ [v], ⟨h.length⟩)

/-- Overwrite in place the array a reference points to. -/
def heapSet (h : List (List Contrib)) (r : ArrRef) (v : List Contrib) :
    List (List Contrib) :=
  h.set r.idx v

/-- Heap-level embedding of `calculateStreaks` for the frame claim: the
argument is a reference to the caller's array.  Line 295 of src/server.js
evaluates `[...contributions]`, allocating a fresh array with the same
contents, and `.sort(...)` then mutates that fresh array in place; everything
afterwards only reads.  Returns the result together with the heap after the
call. -/
def calculateStreaksST (h : List (List Contrib)) (r : ArrRef) :
    StreakResult × List (List Contrib) :=
  let contributions := heapGet h r
  if contributions.isEmpty then
    ({ streaks := [], streakFrequency := [], longestStreak := 0,
       totalStreaks := 0, averageStreakLength := none }, h)
  else
    let copied := heapAlloc h (heapGet h r)
    let h1 := copied.1
    let copyRef := copied.2
    let h2 := heapSet h1 copyRef ((heapGet h1 copyRef).mergeSort dateLe)
    (streaksResultOfSorted (heapGet h2 copyRef), h2)

/-- Reading one slot after appending a fresh one is unchanged. -/
theorem heapGet_append (h : List (List Contrib)) (v : List Contrib)
    (r : ArrRef) (hr : r.idx < h.length) :
    heapGet (h ++ [v]) r = heapGet h r := by
  simp only [heapGet, List.getD_eq_getElem?_getD]
  rw [List.getElem?_append, if_pos hr]

/-- Reading one slot after writing through a different reference is
unchanged. -/
theorem heapGet_set_ne (h : List (List Contrib)) (r s : ArrRef)
    (v : List Contrib) (hne : s.idx ≠ r.idx) :
    heapGet (heapSet h s v) r = heapGet h r := by
  simp only [heapGet, heapSet, List.getD_eq_getElem?_getD]
  rw [List.getElem?_set_ne hne]

/-- Reading back the freshly allocated and overwritten copy. -/
theorem heapGet_fresh_set (h : List (List Contrib)) (v w : List Contrib) :
    heapGet (heapSet (h ++ [v]) ⟨h.length⟩ w) ⟨h.length⟩ = w := by
  simp only [heapGet, heapSet, List.getD_eq_getElem?_getD]
  rw [List.getElem?_set_self (by simp)]
  rfl

/-- The heap-level call leaves the caller's array untouched (the sort runs on
the spread copy), returns exactly the value-level result on the array's
contents, and never shrinks the heap. -/
theorem calculateStreaksST_frame (h : List (List Contrib)) (r : ArrRef)
    (hr : r.idx < h.length) :
    heapGet (calculateStreaksST h r).2 r = heapGet h r ∧
    (calculateStreaksST h r).1 = calculateStreaks (heapGet h r) ∧
    r.idx < (calculateStreaksST h r).2.length := by
  by_cases hemp : (heapGet h r).isEmpty
  · have : calculateStreaksST h r
        = ({ streaks := [], streakFrequency := [], longestStreak := 0,
             totalStreaks := 0, averageStreakLength := none }, h) := by
      simp only [calculateStreaksST, hemp]
      rfl
    rw [this]
    exact ⟨rfl, by simp [calculateStreaks, hemp], hr⟩
  · have hstep : calculateStreaksST h r
        = (streaksResultOfSorted
            (heapGet
              (heapSet (h ++ [heapGet h r]) ⟨h.length⟩
                ((heapGet (h ++ [heapGet h r]) ⟨h.length⟩).mergeSort dateLe))
              ⟨h.length⟩),
           heapSet (h ++ [heapGet h r]) ⟨h.length⟩
             ((heapGet (h ++ [heapGet h r]) ⟨h.length⟩).mergeSort dateLe)) := by
      simp only [calculateStreaksST, hemp, heapAlloc]
      rfl
    have hfreshread : heapGet (h ++ [heapGet h r]) ⟨h.length⟩ = heapGet h r := by
      simp only [heapGet, List.getD_eq_getElem?_getD]
      rw [List.getElem?_append, if_neg (lt_irrefl _)]
      simp
    have hne : (ArrRef.mk h.length).idx ≠ r.idx := by
      simp only []
      omega
    refine ⟨?_, ?_, ?_⟩
    · rw [hstep]
      show heapGet (heapSet (h ++ [heapGet h r]) ⟨h.length⟩
        ((heapGet (h ++ [heapGet h r]) ⟨h.length⟩).mergeSort dateLe)) r
        = heapGet h r
      rw [heapGet_set_ne _ _ _ _ hne, heapGet_append h _ r hr]
    · rw [hstep]
      show streaksResultOfSorted
          (heapGet
            (heapSet (h ++ [heapGet h r]) ⟨h.length⟩
              ((heapGet (h ++ [heapGet h r]) ⟨h.length⟩).mergeSort dateLe))
            ⟨h.length⟩)
        = calculateStreaks (heapGet h r)
      rw [heapGet_fresh_set, hfreshread]
      simp [calculateStreaks, hemp]
    · rw [hstep]
      show r.idx < (heapSet (h ++ [heapGet h r]) ⟨h.length⟩
        ((heapGet (h ++ [heapGet h r]) ⟨h.length⟩).mergeSort dateLe)).length
      simp only [heapSet, List.length_set, List.length_append]
      omega

/-- C10: `calculateStreaks` never mutates the caller's array — line 295
sorts a spread copy — so the caller's series reads back unchanged after the
call, the result is a pure function of the series' value, and calling it a
second time on the same (unchanged) series gives the same result. -/
theorem calculateStreaks_pure (h : List (List Contrib)) (r : ArrRef)
    (hr : r.idx < h.length) :
    heapGet (calculateStreaksST h r).2 r = heapGet h r ∧
    (calculateStreaksST h r).1 = calculateStreaks (heapGet h r) ∧
    (calculateStreaksST (calculateStreaksST h r).2 r).1
      = (calculateStreaksST h r).1 := by
  obtain ⟨hframe, hval, hlen⟩ := calculateStreaksST_frame h r hr
  obtain ⟨_, hval2, _⟩ := calculateStreaksST_frame (calculateStreaksST h r).2 r hlen
  exact ⟨hframe, hval, by rw [hval2, hframe, hval]⟩

/-- Witness for C10: `calculateStreaks_pure` on a one-array heap whose only
slot holds a one-day series. -/
theorem calculateStreaks_pure_witness :
    (ArrRef.mk 0).idx < ([[⟨0, 1⟩]] : List (List Contrib)).length ∧
      heapGet (calculateStreaksST [[⟨0, 1⟩]] ⟨0⟩).2 ⟨0⟩
        = heapGet [[⟨0, 1⟩]] ⟨0⟩ :=
  ⟨by decide, (calculateStreaks_pure [[⟨0, 1⟩]] ⟨0⟩ (by decide)).1⟩
